import Mathlib

/-!
Shallow embedding of the `polynomint` crate: a univariate polynomial with
integer coefficients stored as a coefficient list in ascending degree order.
Machine integers (`isize`) are modelled as unbounded `Int` (the crate's own
documentation makes overflow the caller's concern), and operations that can
panic (remainder by zero) are modelled with `Option`, `none` being the panic.
Rust's truncating `/` and `%` on signed integers are `Int.tdiv` and `Int.tmod`;
Rust's `rem_euclid` on a nonzero modulus is `Int.emod`.
-/

namespace Polynomint

/-- `Polynomial::reduce` (src/lib.rs): pop trailing zero coefficients while the
last element is 0.  Popping from the back while the last element is zero is the
same as dropping the longest all-zero prefix of the reversed list. -/
def reduce (l : List Int) : List Int :=
  ((l.reverse.dropWhile (fun c => c == 0))).reverse

/-- The `Polynomial` struct (src/lib.rs): a wrapper around a vector of signed
integer coefficients, in ascending order of degree. -/
structure Polynomial where
  coeffs : List Int
deriving DecidableEq

/-- `Polynomial::zero`: the zero polynomial, stored as the empty vector. -/
def Polynomial.zero : Polynomial := ⟨[]⟩

/-- `Polynomial::new`: store the coefficients and normalize. -/
def Polynomial.new (l : List Int) : Polynomial := ⟨reduce l⟩

/-- `Polynomial::constant`. -/
def Polynomial.constant (i : Int) : Polynomial :=
  if i = 0 then Polynomial.zero else ⟨[i]⟩

/-- `Polynomial::degree`: length of the coefficient vector minus one, as a
signed integer (so the zero polynomial has degree -1). -/
def Polynomial.degree (p : Polynomial) : Int :=
  (p.coeffs.length : Int) - 1

/-- `Polynomial::is_zero`: degree equals -1. -/
def Polynomial.is_zero (p : Polynomial) : Bool :=
  p.degree == -1

/-- `Polynomial::times_x` (src/lib.rs and src/math.rs): prepend a zero
coefficient; note that the source performs no normalization here. -/
def Polynomial.times_x (p : Polynomial) : Polynomial :=
  ⟨0 :: p.coeffs⟩

/-- `Polynomial::eval` (Horner): fold over the coefficients from highest degree
to lowest, `acc = acc * x + coeff`. -/
def Polynomial.eval (p : Polynomial) (x : Int) : Int :=
  p.coeffs.reverse.foldl (fun acc i => acc * x + i) 0

/-- `Polynomial::has_root`: `eval(x) == 0`. -/
def Polynomial.has_root (p : Polynomial) (x : Int) : Bool :=
  p.eval x == 0

/-- `Polynomial::has_root_mod`: `eval(x).rem_euclid(div) == 0`; `rem_euclid`
panics (here: `none`) when the modulus is 0. -/
def Polynomial.has_root_mod (p : Polynomial) (x dm : Int) : Option Bool :=
  if dm = 0 then none else some (Int.emod (p.eval x) dm == 0)

/-- The coefficient loop of the `%` operator (src/rem.rs): every coefficient is
replaced by its truncating remainder. -/
def remList (l : List Int) (n : Int) : List Int :=
  l.map (fun c => Int.tmod c n)

/-- `impl Rem<isize> for Polynomial` (by value, src/rem.rs): the zero
polynomial is returned untouched, otherwise each coefficient is reduced `%= n`
(a panic when `n = 0`, since the loop body runs) and the result is normalized. -/
def Polynomial.remVal (p : Polynomial) (n : Int) : Option Polynomial :=
  if p.is_zero then some p
  else if n = 0 then none
  else some ⟨reduce (remList p.coeffs n)⟩

/-- `impl Rem<isize> for &Polynomial` (src/rem.rs): as `remVal` but the zero
case builds a fresh `zero()`. -/
def Polynomial.remRef (p : Polynomial) (n : Int) : Option Polynomial :=
  if p.is_zero then some Polynomial.zero
  else if n = 0 then none
  else some ⟨reduce (remList p.coeffs n)⟩

/-- `impl RemAssign<isize> for Polynomial` (src/rem.rs). -/
def Polynomial.remAssign (p : Polynomial) (n : Int) : Option Polynomial :=
  if p.is_zero then some p
  else if n = 0 then none
  else some ⟨reduce (remList p.coeffs n)⟩

/-- The coefficient loop of `rem_euclid` (src/lib.rs and src/math.rs). -/
def remEuclidList (l : List Int) (n : Int) : List Int :=
  l.map (fun c => Int.emod c n)

/-- `Polynomial::rem_euclid`: zero polynomial short-circuits to `zero()`;
otherwise each coefficient is replaced by its Euclidean remainder (a panic,
`none`, when `n = 0`) and the result is normalized. -/
def Polynomial.rem_euclid (p : Polynomial) (n : Int) : Option Polynomial :=
  if p.is_zero then some Polynomial.zero
  else if n = 0 then none
  else some ⟨reduce (remEuclidList p.coeffs n)⟩

/-- The value of `rem_euclid` on a nonzero modulus (the only way it is invoked
inside `factor_root_mod`, whose modulus has already passed `has_root_mod`). -/
def Polynomial.remEuclidPoly (p : Polynomial) (n : Int) : Polynomial :=
  if p.is_zero then Polynomial.zero
  else ⟨reduce (remEuclidList p.coeffs n)⟩

/-- The accumulator loop of `factor_root` (src/math.rs): for each coefficient,
`acc -= coeff; acc /= a; push acc`, with Rust's truncating division. -/
def synthGo (a : Int) : Int → List Int → List Int
  | _, [] => []
  | acc, c :: t =>
    let acc2 := Int.tdiv (acc - c) a
    acc2 :: synthGo a acc2 t

/-- `Polynomial::factor_root` (src/math.rs): `None` when `a` is not a root;
`Some(zero())` for the zero polynomial; for root `0` drop the constant term;
otherwise run the synthetic-division loop over all but the last coefficient.
None of the `Some` branches normalizes its result. -/
def Polynomial.factor_root (p : Polynomial) (a : Int) : Option Polynomial :=
  if ¬ p.has_root a then none
  else if p.is_zero then some Polynomial.zero
  else if a = 0 then some ⟨p.coeffs.drop 1⟩
  else some ⟨synthGo a 0 (p.coeffs.take (p.coeffs.length - 1))⟩

/-- `Polynomial::is_prime` (src/math.rs): trial division over the candidates
`i` with `5 <= i < floor(sqrt(p))` (the source's `5..sqrt` range excludes its
upper end) that are 1 or 5 mod 6.  The source computes `(p as f64).sqrt()
.floor() as usize`, which is the integer square root `Nat.sqrt p` (exact for
every argument the claims touch; `sqrt(25.0) = 5.0` exactly in `f64`). -/
def is_prime (p : Nat) : Bool :=
  if p == 2 || p == 3 then true
  else if p == 1 || p % 2 == 0 || p % 3 == 0 then false
  else
    ((List.range' 5 (Nat.sqrt p - 5)).filter (fun x => x % 6 == 1 || x % 6 == 5)).all
      (fun i => p % i != 0)

/-- The `p as usize` cast applied to the `isize` modulus before the primality
check, on a 64-bit target: wrap into `[0, 2^64)`. -/
def usize_cast (i : Int) : Nat :=
  (Int.emod i (2 ^ 64)).toNat

/-- The extended-Euclid loop of `Polynomial::inv_mod_p` (src/math.rs):
`while r.1 != 0 { quot = r.0 / r.1; r = (r.1, r.0 - quot*r.1);
s = (s.1, s.0 - quot*s.1) }`, returning `s.0`. -/
def egcdLoop (r : Int × Int) (s : Int × Int) : Int :=
  if r.2 = 0 then s.1
  else
    let quot := Int.tdiv r.1 r.2
    egcdLoop (r.2, r.1 - quot * r.2) (s.2, s.1 - quot * s.2)
termination_by r.2.natAbs
decreasing_by
  have h2 : r.1 - Int.tdiv r.1 r.2 * r.2 = Int.tmod r.1 r.2 := by
    rw [Int.tmod_def]; ring
  simp only [h2]
  have h3 : (Int.tmod r.1 r.2).natAbs = r.1.natAbs % r.2.natAbs := by
    cases r.1 <;> cases r.2 <;>
      simp only [Int.tmod, Int.natAbs_neg, Int.natAbs_ofNat, Int.natAbs_negSucc] <;> rfl
  rw [h3]
  exact Nat.mod_lt _ (Int.natAbs_pos.mpr (by assumption))

/-- `Polynomial::inv_mod_p` (src/math.rs): Bezout coefficient of `a` mod `p`,
normalized with `rem_euclid`. -/
def inv_mod_p (a p : Int) : Int :=
  Int.emod (egcdLoop (a, p) (1, 0)) p

/-- The accumulator loop of `factor_root_mod` (src/math.rs): for each
coefficient `c` of the mod-reduced polynomial, `acc -= c; acc *= inv;
push acc.rem_euclid(m)` — the pushed value is reduced mod `m` but the
accumulator itself keeps its unreduced value.  (The source recomputes the same
`inv_mod_p(a.rem_euclid(p), p)` inside every iteration; its arguments never
change, so it is a loop constant.) -/
def factorModGo (inv m : Int) : Int → List Int → List Int
  | _, [] => []
  | acc, c :: t =>
    let acc2 := (acc - c) * inv
    Int.emod acc2 m :: factorModGo inv m acc2 t

/-- `Polynomial::factor_root_mod` (src/math.rs).  The outer `Option` is the
panic of `has_root_mod` on modulus 0 (evaluated first in the guard); the inner
`Option` is the function's own `Option<Polynomial>` result.  The root-0 branch
normalizes; the general branch does not. -/
def Polynomial.factor_root_mod (p : Polynomial) (a m : Int) : Option (Option Polynomial) :=
  match p.has_root_mod a m with
  | none => none
  | some isRoot =>
    some (
      if !isRoot || !is_prime (usize_cast m) then none
      else if p.is_zero then some Polynomial.zero
      else if a = 0 then some ⟨reduce ((p.remEuclidPoly m).coeffs.drop 1)⟩
      else
        some ⟨factorModGo (inv_mod_p (Int.emod a m) m) m 0
          ((p.remEuclidPoly m).coeffs.take (p.coeffs.length - 1))⟩)

/-- Coefficient `i` of the polynomial product (src/mul.rs): sum over
`n in 0..=i` of `lhs[n] * rhs[i-n]` guarded by `n <= lhs.degree()` and
`i - n <= rhs.degree()` (comparisons on Rust's `isize`, hence over `Int`). -/
def convCoeff (pc qc : List Int) (i : Nat) : Int :=
  ∑ n ∈ Finset.range (i + 1),
    if (n : Int) ≤ (pc.length : Int) - 1 ∧ (i : Int) - (n : Int) ≤ (qc.length : Int) - 1
      then pc.getD n 0 * qc.getD (i - n) 0 else 0

/-- The full product coefficient vector: indices `0..=(sdeg + rdeg)` where the
degrees are `isize` values `len - 1`. -/
def convList (pc qc : List Int) : List Int :=
  (List.range ((((pc.length : Int) - 1) + ((qc.length : Int) - 1) + 1).toNat)).map
    (convCoeff pc qc)

/-- `impl Mul for Polynomial` (by value, src/mul.rs): zero short-circuit, then
the convolution loop, then one `reduce`. -/
def Polynomial.mulVal (p q : Polynomial) : Polynomial :=
  if p.is_zero || q.is_zero then Polynomial.zero
  else ⟨reduce (convList p.coeffs q.coeffs)⟩

/-- `impl Mul<&Polynomial> for &Polynomial` (src/mul.rs): zero short-circuit,
then the convolution loop, `Polynomial::new` (which reduces) and one more
`reduce`. -/
def Polynomial.mulRef (p q : Polynomial) : Polynomial :=
  if p.is_zero || q.is_zero then Polynomial.zero
  else ⟨reduce (reduce (convList p.coeffs q.coeffs))⟩

/-- `impl MulAssign for Polynomial` (src/mul.rs): the zero case assigns
`zero()` but then falls through to the convolution loop (there is no `else`),
which at that point convolves the zero polynomial with `rhs`; the final
assignment reduces. -/
def Polynomial.mulAssign (p q : Polynomial) : Polynomial :=
  let p1 := if p.is_zero || q.is_zero then Polynomial.zero else p
  ⟨reduce (convList p1.coeffs q.coeffs)⟩

/-- `impl Mul<isize> for Polynomial` (src/mul.rs): no normalization in the
nonzero branch. -/
def Polynomial.mulScalarVal (p : Polynomial) (c : Int) : Polynomial :=
  if p.is_zero || c = 0 then Polynomial.zero
  else ⟨p.coeffs.map (fun x => x * c)⟩

/-- `impl Mul<isize> for &Polynomial` (src/mul.rs). -/
def Polynomial.mulScalarRef (p : Polynomial) (c : Int) : Polynomial :=
  if p.is_zero || c = 0 then Polynomial.zero
  else ⟨p.coeffs.map (fun x => x * c)⟩

/-- `impl MulAssign<isize> for Polynomial` (src/mul.rs). -/
def Polynomial.mulScalarAssign (p : Polynomial) (c : Int) : Polynomial :=
  if p.is_zero || c = 0 then Polynomial.zero
  else ⟨p.coeffs.map (fun x => x * c)⟩

/-- The addition loops of src/add.rs: pointwise sum, the longer operand's tail
kept (by-value: push / break; by-reference: the three-way branch). -/
def addLists : List Int → List Int → List Int
  | [], ys => ys
  | xs, [] => xs
  | x :: xs, y :: ys => (x + y) :: addLists xs ys

/-- `impl Add for Polynomial` (by value, src/add.rs). -/
def Polynomial.addVal (p q : Polynomial) : Polynomial :=
  if p.is_zero then q
  else if q.is_zero then p
  else ⟨reduce (addLists p.coeffs q.coeffs)⟩

/-- `impl Add<&Polynomial> for &Polynomial` (src/add.rs): no zero
short-circuit; the loop, `Polynomial::new` (reduces), one more `reduce`. -/
def Polynomial.addRef (p q : Polynomial) : Polynomial :=
  ⟨reduce (reduce (addLists p.coeffs q.coeffs))⟩

/-- `impl AddAssign for Polynomial` and `impl AddAssign<&Polynomial>`
(src/add.rs): identical loops; the zero receiver takes over `rhs`'s
coefficients, a zero `rhs` leaves the receiver untouched. -/
def Polynomial.addAssign (p q : Polynomial) : Polynomial :=
  if p.is_zero then q
  else if q.is_zero then p
  else ⟨reduce (addLists p.coeffs q.coeffs)⟩

/-- Adding a scalar to the constant coefficient (the `coeffs[0] += rhs` step). -/
def addHead (l : List Int) (c : Int) : List Int :=
  match l with
  | [] => []
  | x :: t => (x + c) :: t

/-- `impl Add<isize> for Polynomial` (src/add.rs). -/
def Polynomial.addScalarVal (p : Polynomial) (c : Int) : Polynomial :=
  if p.is_zero then Polynomial.constant c
  else if c = 0 then p
  else ⟨reduce (addHead p.coeffs c)⟩

/-- `impl Add<isize> for &Polynomial` (src/add.rs). -/
def Polynomial.addScalarRef (p : Polynomial) (c : Int) : Polynomial :=
  if p.is_zero then Polynomial.constant c
  else if c = 0 then p
  else ⟨reduce (addHead p.coeffs c)⟩

/-- `impl AddAssign<isize> for Polynomial` (src/add.rs): a zero receiver just
pushes the scalar — even when the scalar is 0, and without normalizing. -/
def Polynomial.addScalarAssign (p : Polynomial) (c : Int) : Polynomial :=
  if p.is_zero then ⟨[c]⟩
  else if c = 0 then p
  else ⟨reduce (addHead p.coeffs c)⟩

/-- The subtraction loops of src/sub.rs: pointwise difference, a missing left
tail contributing negated right coefficients. -/
def subLists : List Int → List Int → List Int
  | [], ys => ys.map (fun c => -c)
  | xs, [] => xs
  | x :: xs, y :: ys => (x - y) :: subLists xs ys

/-- `impl Neg for Polynomial` (by value, src/sub.rs): negate in place, no
normalization. -/
def Polynomial.negVal (p : Polynomial) : Polynomial :=
  ⟨p.coeffs.map (fun c => -c)⟩

/-- `impl Neg for &Polynomial` (src/sub.rs): negate a clone, then `reduce`. -/
def Polynomial.negRef (p : Polynomial) : Polynomial :=
  ⟨reduce (p.coeffs.map (fun c => -c))⟩

/-- `impl Sub for Polynomial` (by value, src/sub.rs).  Note the source's zero
branch returns `rhs` itself, not its negation. -/
def Polynomial.subVal (p q : Polynomial) : Polynomial :=
  if p.is_zero then q
  else if q.is_zero then p
  else ⟨reduce (subLists p.coeffs q.coeffs)⟩

/-- `impl Sub<&Polynomial> for &Polynomial` (src/sub.rs). -/
def Polynomial.subRef (p q : Polynomial) : Polynomial :=
  ⟨reduce (reduce (subLists p.coeffs q.coeffs))⟩

/-- `impl SubAssign for Polynomial` (src/sub.rs): a zero receiver is assigned
the (by-value) negation of `rhs`. -/
def Polynomial.subAssign (p q : Polynomial) : Polynomial :=
  if p.is_zero then Polynomial.negVal q
  else if q.is_zero then p
  else ⟨reduce (subLists p.coeffs q.coeffs)⟩

/-- Subtracting a scalar from the constant coefficient. -/
def subHead (l : List Int) (c : Int) : List Int :=
  match l with
  | [] => []
  | x :: t => (x - c) :: t

/-- `impl Sub<isize> for Polynomial` (src/sub.rs). -/
def Polynomial.subScalarVal (p : Polynomial) (c : Int) : Polynomial :=
  if p.is_zero then Polynomial.constant (-c)
  else if c = 0 then p
  else ⟨reduce (subHead p.coeffs c)⟩

/-- `impl Sub<isize> for &Polynomial` (src/sub.rs). -/
def Polynomial.subScalarRef (p : Polynomial) (c : Int) : Polynomial :=
  if p.is_zero then Polynomial.constant (-c)
  else if c = 0 then p
  else ⟨reduce (subHead p.coeffs c)⟩

/-- `impl SubAssign<isize> for Polynomial` (src/sub.rs): a zero receiver
pushes `-rhs`, even when `rhs` is 0, without normalizing. -/
def Polynomial.subScalarAssign (p : Polynomial) (c : Int) : Polynomial :=
  if p.is_zero then ⟨[-c]⟩
  else if c = 0 then p
  else ⟨reduce (subHead p.coeffs c)⟩

/-- The invariant the crate's documentation promises for every exposed
polynomial: no stored trailing zero coefficient, i.e. `reduce` is a no-op. -/
def Reduced (p : Polynomial) : Prop :=
  reduce p.coeffs = p.coeffs

instance : DecidablePred Reduced := fun p => by
  unfold Reduced; infer_instance

/-- Reference evaluation used in proofs:
`specEval (c :: t) x = c + x * specEval t x`. -/
def specEval : List Int → Int → Int
  | [], _ => 0
  | c :: t, x => c + x * specEval t x

theorem eval_eq_specEval (l : List Int) (x : Int) :
    Polynomial.eval ⟨l⟩ x = specEval l x := by
  unfold Polynomial.eval
  rw [List.foldl_reverse]
  induction l with
  | nil => rfl
  | cons c t ih =>
    simp only [List.foldr_cons, specEval, ih]
    ring

theorem reduce_getLast? (l : List Int) : (reduce l).getLast? ≠ some 0 := by
  unfold reduce
  rw [List.getLast?_eq_head?_reverse, List.reverse_reverse]
  have h := List.head?_dropWhile_not (fun c => c == 0) l.reverse
  intro hc
  rw [hc] at h
  simp at h

theorem reduce_eq_self {l : List Int} (h : l.getLast? ≠ some 0) : reduce l = l := by
  unfold reduce
  cases hr : l.reverse with
  | nil =>
    have : l = [] := List.reverse_eq_nil_iff.mp hr
    simp [this]
  | cons x t =>
    have hx : ¬((x == 0) = true) := by
      rw [List.getLast?_eq_head?_reverse, hr] at h
      simpa using h
    rw [List.dropWhile_cons, if_neg hx, ← hr, List.reverse_reverse]

theorem reduce_idem (l : List Int) : reduce (reduce l) = reduce l :=
  reduce_eq_self (reduce_getLast? l)

theorem mem_reduce {c : Int} {l : List Int} (h : c ∈ reduce l) : c ∈ l := by
  unfold reduce at h
  rw [List.mem_reverse] at h
  exact List.mem_reverse.mp (List.dropWhile_subset _ h)

theorem is_zero_iff {p : Polynomial} : p.is_zero = true ↔ p.coeffs = [] := by
  simp only [Polynomial.is_zero, Polynomial.degree, beq_iff_eq]
  constructor
  · intro h
    have hl : p.coeffs.length = 0 := by omega
    exact List.length_eq_zero.mp hl
  · intro h
    rw [h]
    rfl

theorem is_zero_false_iff {p : Polynomial} : p.is_zero = false ↔ p.coeffs ≠ [] := by
  rw [← Bool.not_eq_true, not_iff_not]
  exact is_zero_iff

theorem specEval_eq_sum (l : List Int) (x : Int) :
    specEval l x = ∑ i ∈ Finset.range l.length, l.getD i 0 * x ^ i := by
  induction l with
  | nil => simp [specEval]
  | cons c t ih =>
    rw [specEval, List.length_cons, Finset.sum_range_succ']
    simp only [List.getD_cons_succ, List.getD_cons_zero, pow_zero, mul_one]
    have hs : ∑ i ∈ Finset.range t.length, t.getD i 0 * x ^ (i + 1)
        = x * ∑ i ∈ Finset.range t.length, t.getD i 0 * x ^ i := by
      rw [Finset.mul_sum]
      refine Finset.sum_congr rfl (fun i _ => ?_)
      ring
    rw [hs, ← ih]
    ring

example : Polynomial.eval ⟨[5, 2, 1]⟩ 1 = 8 := by decide
example : Polynomial.eval ⟨[-5, 4, -3, -1]⟩ (-2) = -17 := by decide
example : reduce [1, 2, 0, 0] = [1, 2] := by decide
example : Polynomial.factor_root ⟨[12, -8, 1]⟩ 2 = some ⟨[-6, 1]⟩ := by decide
example : Polynomial.factor_root ⟨[12, -8, 1]⟩ 6 = some ⟨[-2, 1]⟩ := by decide
example : Polynomial.factor_root ⟨[12, -8, 1]⟩ 5 = none := by decide
example : Polynomial.mulRef ⟨[1, 2, 1]⟩ ⟨[-6, 1]⟩ = ⟨[-6, -11, -4, 1]⟩ := by decide
example : Polynomial.rem_euclid ⟨[6, -5, 3, -7, 4]⟩ 5 = some ⟨[1, 0, 3, 3, 4]⟩ := by decide
example : is_prime 5 = true := by
  have h : Nat.sqrt 5 = 2 := (Nat.eq_sqrt.mpr (by norm_num)).symm
  simp [is_prime, h]
example : is_prime 25 = true := by
  have h : Nat.sqrt 25 = 5 := (Nat.eq_sqrt.mpr (by norm_num)).symm
  simp [is_prime, h]

theorem emod_lt_abs (a : Int) {n : Int} (hn : n ≠ 0) : Int.emod a n < |n| := by
  rcases lt_or_gt_of_ne hn with h | h
  · have h2 : 0 < -n := by omega
    have h3 : Int.emod a n = Int.emod a (-n) := by
      conv_lhs => rw [show n = -(-n) by ring]
      exact Int.emod_neg a (-n)
    rw [h3, abs_of_neg h]
    exact Int.emod_lt_of_pos a h2
  · rw [abs_of_pos h]
    exact Int.emod_lt_of_pos a h

/-- Claim C9: `eval` implements Horner's rule (accumulator from the highest
degree down) and returns the exact value of the sum of `c_i * x^i`; the zero
polynomial evaluates to 0. -/
theorem C9_eval_horner_sum (p : Polynomial) (x : Int) :
    p.eval x = (∑ i ∈ Finset.range p.coeffs.length, p.coeffs.getD i 0 * x ^ i) ∧
    Polynomial.zero.eval x = 0 := by
  constructor
  · exact (eval_eq_specEval p.coeffs x).trans (specEval_eq_sum _ _)
  · rfl

/-- Claim C10: remainder with modulus 0 returns `zero()` without failure when
the receiver is the zero polynomial (for `%` in all its forms and for
`rem_euclid`), and is a hard failure (modelled `none`) for every nonzero
polynomial. -/
theorem C10_rem_by_zero (p : Polynomial) :
    (p.is_zero = true →
      p.remVal 0 = some Polynomial.zero ∧ p.remRef 0 = some Polynomial.zero ∧
      p.rem_euclid 0 = some Polynomial.zero) ∧
    (p.is_zero = false →
      p.remVal 0 = none ∧ p.remRef 0 = none ∧ p.rem_euclid 0 = none) := by
  constructor
  · intro h
    have hc : p.coeffs = [] := is_zero_iff.mp h
    have hp : p = Polynomial.zero := by
      cases p
      simp only [Polynomial.zero]
      simp_all
    rw [hp]
    refine ⟨rfl, rfl, rfl⟩
  · intro h
    simp [Polynomial.remVal, Polynomial.remRef, Polynomial.rem_euclid, h]

theorem C10_rem_by_zero_witness :
    (Polynomial.remVal ⟨[1]⟩ 0 = none ∧ Polynomial.remRef ⟨[1]⟩ 0 = none ∧
      Polynomial.rem_euclid ⟨[1]⟩ 0 = none) ∧
    (Polynomial.remVal Polynomial.zero 0 = some Polynomial.zero ∧
      Polynomial.remRef Polynomial.zero 0 = some Polynomial.zero ∧
      Polynomial.rem_euclid Polynomial.zero 0 = some Polynomial.zero) :=
  ⟨(C10_rem_by_zero ⟨[1]⟩).2 (by decide), (C10_rem_by_zero Polynomial.zero).1 (by decide)⟩

/-- Claim C8: for every nonzero modulus `n`, `%` replaces each coefficient by
its truncating remainder and normalizes, `rem_euclid` replaces each
coefficient by its Euclidean remainder — always in `[0, |n|)` — and
normalizes, and the two operations differ on a polynomial with a negative
coefficient. -/
theorem C8_rem_vs_rem_euclid (p : Polynomial) (n : Int) (hn : n ≠ 0) :
    p.remVal n = some ⟨reduce (p.coeffs.map (fun c => Int.tmod c n))⟩ ∧
    p.rem_euclid n = some ⟨reduce (p.coeffs.map (fun c => Int.emod c n))⟩ ∧
    (∀ q, p.rem_euclid n = some q → ∀ c ∈ q.coeffs, 0 ≤ c ∧ c < |n|) ∧
    Polynomial.remVal ⟨[-2, 1]⟩ 3 ≠ Polynomial.rem_euclid ⟨[-2, 1]⟩ 3 := by
  have heu : p.rem_euclid n = some ⟨reduce (p.coeffs.map (fun c => Int.emod c n))⟩ := by
    by_cases h : p.is_zero
    · have hc : p.coeffs = [] := is_zero_iff.mp h
      simp [Polynomial.rem_euclid, h, hc, Polynomial.zero, reduce]
    · simp [Polynomial.rem_euclid, h, hn, remEuclidList]
  refine ⟨?_, heu, ?_, by decide⟩
  · by_cases h : p.is_zero
    · have hc : p.coeffs = [] := is_zero_iff.mp h
      have hp : p = Polynomial.zero := by
        cases p
        simp only [Polynomial.zero]
        simp_all
      rw [hp]
      rfl
    · simp [Polynomial.remVal, h, hn, remList]
  · intro q hq c hc
    rw [heu] at hq
    obtain rfl : (⟨reduce (p.coeffs.map (fun c => Int.emod c n))⟩ : Polynomial) = q :=
      Option.some_injective _ hq
    have hc2 := mem_reduce hc
    obtain ⟨c0, _, rfl⟩ := List.mem_map.mp hc2
    exact ⟨Int.emod_nonneg c0 hn, emod_lt_abs c0 hn⟩

theorem C8_rem_vs_rem_euclid_witness :
    Polynomial.remVal ⟨[-2, 1]⟩ 3 = some ⟨reduce ([-2, 1].map (fun c => Int.tmod c 3))⟩ ∧
    Polynomial.rem_euclid ⟨[-2, 1]⟩ 3 = some ⟨reduce ([-2, 1].map (fun c => Int.emod c 3))⟩ ∧
    (∀ q, Polynomial.rem_euclid ⟨[-2, 1]⟩ 3 = some q → ∀ c ∈ q.coeffs, 0 ≤ c ∧ c < |(3 : Int)|) ∧
    Polynomial.remVal ⟨[-2, 1]⟩ 3 ≠ Polynomial.rem_euclid ⟨[-2, 1]⟩ 3 :=
  C8_rem_vs_rem_euclid ⟨[-2, 1]⟩ 3 (by decide)

/-- Claim C5 is violated by the code: the trial-division range `5..sqrt(p)`
excludes its upper bound, so for `p = 25` the candidate 5 is never tested
(`5..5` is empty) and the composite 25 is accepted.  (Every prime is still
accepted: no candidate divides a prime.) -/
theorem C5_is_prime_accepts_composite_25 :
    is_prime 25 = true ∧ 25 = 5 * 5 ∧ ¬ Nat.Prime 25 := by
  refine ⟨?_, rfl, by decide⟩
  have h : Nat.sqrt 25 = 5 := (Nat.eq_sqrt.mpr (by norm_num)).symm
  simp [is_prime, h]

/-- Claim C6: the shift part holds for every polynomial (coefficient `i+1` of
`times_x p` is coefficient `i` of `p`, and the constant term is 0), but the
claimed edge case fails: `zero().times_x()` is the unnormalized `[0]`, which is
structurally different from `zero()` and not even reported as zero. -/
theorem C6_times_x_shift_but_zero_unnormalized :
    (∀ (p : Polynomial) (i : Nat), (p.times_x).coeffs.getD (i + 1) 0 = p.coeffs.getD i 0) ∧
    (∀ p : Polynomial, (p.times_x).coeffs.getD 0 0 = 0) ∧
    Polynomial.zero.times_x = ⟨[0]⟩ ∧
    Polynomial.zero.times_x ≠ Polynomial.zero ∧
    (Polynomial.zero.times_x).is_zero = false :=
  ⟨fun _ _ => rfl, fun _ => rfl, rfl, by decide, by decide⟩

/-- Claim C2 is violated by the code: because `is_prime(25)` wrongly returns
true (see C5), `factor_root_mod` happily factors `x` at root 0 modulo the
composite 25 and returns a `Some` result instead of `None`. -/
theorem C2_factor_root_mod_composite_modulus :
    Polynomial.factor_root_mod ⟨[0, 1]⟩ 0 25 = some (some ⟨[1]⟩) ∧ ¬ Nat.Prime 25 := by
  refine ⟨?_, by decide⟩
  have hs : Nat.sqrt 25 = 5 := (Nat.eq_sqrt.mpr (by norm_num)).symm
  have hu : usize_cast 25 = 25 := by decide
  have hip : is_prime (usize_cast 25) = true := by
    rw [hu]
    simp [is_prime, hs]
  unfold Polynomial.factor_root_mod
  rw [show Polynomial.has_root_mod ⟨[0, 1]⟩ 0 25 = some true from by decide, hip]
  decide

/-- Claim C4 is violated by the code in two independent places: the by-value
subtraction of a nonzero polynomial from zero returns the polynomial itself
while the by-reference and compound-assignment forms return its negation, and
the scalar compound assignment `zero += 0` (likewise `-=`) produces the
unnormalized representation `[0]` while `zero + 0` produces `zero()`. -/
theorem C4_calling_forms_disagree :
    Polynomial.subVal Polynomial.zero ⟨[1]⟩ = ⟨[1]⟩ ∧
    Polynomial.subRef Polynomial.zero ⟨[1]⟩ = ⟨[-1]⟩ ∧
    Polynomial.subAssign Polynomial.zero ⟨[1]⟩ = ⟨[-1]⟩ ∧
    Polynomial.subVal Polynomial.zero ⟨[1]⟩ ≠ Polynomial.subRef Polynomial.zero ⟨[1]⟩ ∧
    Polynomial.addScalarVal Polynomial.zero 0 = Polynomial.zero ∧
    Polynomial.addScalarAssign Polynomial.zero 0 = ⟨[0]⟩ ∧
    Polynomial.addScalarVal Polynomial.zero 0 ≠ Polynomial.addScalarAssign Polynomial.zero 0 ∧
    Polynomial.subScalarVal Polynomial.zero 0 = Polynomial.zero ∧
    Polynomial.subScalarAssign Polynomial.zero 0 = ⟨[0]⟩ := by
  decide

/-- Claim C3 is violated by the code on all three cases the claim singles out:
`times_x` on the zero polynomial stores `[0]`; the scalar compound assignments
`+= 0` and `-= 0` on the zero polynomial push a literal 0; and
`factor_root_mod`'s general branch never normalizes, so factoring
`5x^2 + x + 4` at root 1 modulo 5 yields the stored representation `[1, 0]`
with a trailing zero. -/
theorem C3_invariant_violated :
    ¬ Reduced (Polynomial.zero.times_x) ∧
    ¬ Reduced (Polynomial.addScalarAssign Polynomial.zero 0) ∧
    ¬ Reduced (Polynomial.subScalarAssign Polynomial.zero 0) ∧
    Polynomial.factor_root_mod ⟨[4, 1, 5]⟩ 1 5 = some (some ⟨[1, 0]⟩) ∧
    ¬ Reduced (⟨[1, 0]⟩ : Polynomial) := by
  refine ⟨by decide, by decide, by decide, ?_, by decide⟩
  have hs : Nat.sqrt 5 = 2 := (Nat.eq_sqrt.mpr (by norm_num)).symm
  have hu : usize_cast 5 = 5 := by decide
  have hip : is_prime (usize_cast 5) = true := by
    rw [hu]
    simp [is_prime, hs]
  have t1 : Int.tdiv 1 5 = 0 := by decide
  have t2 : Int.tdiv 5 1 = 5 := by decide
  have hinv : inv_mod_p (Int.emod 1 5) 5 = 1 := by
    unfold inv_mod_p
    rw [show Int.emod (1 : Int) 5 = 1 from by decide]
    rw [egcdLoop.eq_def]
    norm_num [t1]
    rw [egcdLoop.eq_def]
    norm_num [t2]
    rw [egcdLoop.eq_def]
    norm_num
  unfold Polynomial.factor_root_mod
  rw [show Polynomial.has_root_mod ⟨[4, 1, 5]⟩ 1 5 = some true from by decide, hip, hinv]
  decide

theorem convCoeff_eq (pc qc : List Int) (i : Nat) :
    convCoeff pc qc i = ∑ n ∈ Finset.range (i + 1), pc.getD n 0 * qc.getD (i - n) 0 := by
  unfold convCoeff
  refine Finset.sum_congr rfl (fun n hn => ?_)
  by_cases h : (n : Int) ≤ (pc.length : Int) - 1 ∧ (i : Int) - (n : Int) ≤ (qc.length : Int) - 1
  · rw [if_pos h]
  · rw [if_neg h]
    rw [not_and_or] at h
    rcases h with h | h
    · have hd : pc.length ≤ n := by omega
      rw [List.getD_eq_default _ _ hd, zero_mul]
    · have hn2 : n < i + 1 := Finset.mem_range.mp hn
      have hd : qc.length ≤ i - n := by omega
      rw [List.getD_eq_default _ _ hd, mul_zero]

theorem convList_length (pc qc : List Int) (hp : pc ≠ []) (hq : qc ≠ []) :
    (convList pc qc).length = pc.length + qc.length - 1 := by
  unfold convList
  rw [List.length_map, List.length_range]
  have h1 : 0 < pc.length := List.length_pos.mpr hp
  have h2 : 0 < qc.length := List.length_pos.mpr hq
  omega

theorem convList_getLast? (pc qc : List Int) (hp : pc ≠ []) (hq : qc ≠ []) :
    (convList pc qc).getLast? = some (convCoeff pc qc (pc.length + qc.length - 2)) := by
  unfold convList
  have h1 : 0 < pc.length := List.length_pos.mpr hp
  have h2 : 0 < qc.length := List.length_pos.mpr hq
  have hN : (((pc.length : Int) - 1) + ((qc.length : Int) - 1) + 1).toNat
      = (pc.length + qc.length - 2) + 1 := by omega
  rw [hN, List.range_succ, List.map_append, List.map_cons, List.map_nil]
  rw [List.getLast?_concat]

theorem getD_last (l : List Int) : l.getD (l.length - 1) 0 = l.getLastD 0 := by
  rw [List.getD_eq_getElem?_getD, List.getLastD_eq_getLast?, List.getLast?_eq_getElem?]

theorem convCoeff_top (pc qc : List Int) (hp : pc ≠ []) (hq : qc ≠ []) :
    convCoeff pc qc (pc.length + qc.length - 2) = pc.getLastD 0 * qc.getLastD 0 := by
  rw [convCoeff_eq]
  have h1 : 0 < pc.length := List.length_pos.mpr hp
  have h2 : 0 < qc.length := List.length_pos.mpr hq
  rw [Finset.sum_eq_single (pc.length - 1)]
  · have he : pc.length + qc.length - 2 - (pc.length - 1) = qc.length - 1 := by omega
    rw [he, getD_last, getD_last]
  · intro n hn hne
    rcases Nat.lt_or_ge n pc.length with h | h
    · have hd : qc.length ≤ pc.length + qc.length - 2 - n := by omega
      rw [List.getD_eq_default _ _ hd, mul_zero]
    · rw [List.getD_eq_default _ _ h, zero_mul]
  · intro hmem
    exact absurd (Finset.mem_range.mpr (by omega)) hmem

/-- Claim C7: for nonzero operands whose leading (last stored) coefficients
have a nonzero product, the degree of the product polynomial is the sum of the
operand degrees. -/
theorem C7_degree_law (p q : Polynomial) (hp : p.is_zero = false) (hq : q.is_zero = false)
    (h : p.coeffs.getLastD 0 * q.coeffs.getLastD 0 ≠ 0) :
    (p.mulVal q).degree = p.degree + q.degree := by
  have hp2 : p.coeffs ≠ [] := is_zero_false_iff.mp hp
  have hq2 : q.coeffs ≠ [] := is_zero_false_iff.mp hq
  unfold Polynomial.mulVal
  rw [hp, hq]
  simp only [Bool.or_self, Bool.false_eq_true, if_false]
  have hlast : (convList p.coeffs q.coeffs).getLast? ≠ some 0 := by
    rw [convList_getLast? _ _ hp2 hq2, convCoeff_top _ _ hp2 hq2]
    intro hc
    exact h (Option.some_injective _ hc)
  simp only [Polynomial.degree, reduce_eq_self hlast]
  rw [convList_length _ _ hp2 hq2]
  have h1 : 0 < p.coeffs.length := List.length_pos.mpr hp2
  have h2 : 0 < q.coeffs.length := List.length_pos.mpr hq2
  omega

theorem C7_degree_law_witness :
    (Polynomial.mulVal ⟨[1, 2, 1]⟩ ⟨[-6, 1]⟩).degree
      = Polynomial.degree ⟨[1, 2, 1]⟩ + Polynomial.degree ⟨[-6, 1]⟩ :=
  C7_degree_law ⟨[1, 2, 1]⟩ ⟨[-6, 1]⟩ (by decide) (by decide) (by decide)

theorem specEval_drop (l : List Int) (x : Int) (j : Nat) (hj : j < l.length) :
    specEval (l.drop j) x = l.getD j 0 + x * specEval (l.drop (j + 1)) x := by
  rw [List.drop_eq_getElem_cons hj, specEval]
  rw [List.getD_eq_getElem?_getD, List.getElem?_eq_getElem hj]
  rfl

theorem specEval_drop_of_le (l : List Int) (x : Int) (j : Nat) (hj : l.length ≤ j) :
    specEval (l.drop j) x = 0 := by
  rw [List.drop_eq_nil_of_le hj]
  rfl

theorem specEval_at_zero (l : List Int) : specEval l 0 = l.getD 0 0 := by
  cases l <;> simp [specEval]

theorem synthGo_length (a acc : Int) (l : List Int) :
    (synthGo a acc l).length = l.length := by
  induction l generalizing acc with
  | nil => rfl
  | cons c t ih => simp only [synthGo, List.length_cons, ih]

theorem synthGo_getD (a : Int) (ha : a ≠ 0) (l rest : List Int) (acc : Int)
    (hacc : acc = specEval (l ++ rest) a) (j : Nat) (hj : j < l.length) :
    (synthGo a acc l).getD j 0 = specEval ((l ++ rest).drop (j + 1)) a := by
  induction l generalizing acc j with
  | nil => cases hj
  | cons c t ih =>
    have hs : specEval ((c :: t) ++ rest) a = c + a * specEval (t ++ rest) a := by
      simp only [List.cons_append, specEval]
      rfl
    have hacc2 : Int.tdiv (acc - c) a = specEval (t ++ rest) a := by
      rw [hacc, hs]
      have he : c + a * specEval (t ++ rest) a - c = a * specEval (t ++ rest) a := by ring
      rw [he, Int.mul_tdiv_cancel_left _ ha]
    simp only [synthGo, hacc2]
    rcases j with _ | k
    · simp [List.cons_append]
    · simp only [List.getD_cons_succ, List.cons_append, List.drop_succ_cons]
      exact ih _ rfl _ (Nat.lt_of_succ_lt_succ hj)

theorem conv_linear_coeff (ql : List Int) (a : Int) (i : Nat) :
    convCoeff ql [-a, 1] i
      = ql.getD i 0 * (-a) + (if i = 0 then 0 else ql.getD (i - 1) 0) := by
  rw [convCoeff_eq]
  rcases i with _ | k
  · simp [List.getD]
  · rw [Finset.sum_range_succ, Finset.sum_range_succ]
    have hz : ∑ n ∈ Finset.range k, ql.getD n 0 * [-a, 1].getD (k + 1 - n) 0 = 0 := by
      refine Finset.sum_eq_zero (fun n hn => ?_)
      have hn2 : n < k := Finset.mem_range.mp hn
      have hd : (2 : Nat) ≤ k + 1 - n := by omega
      have hgd : [-a, 1].getD (k + 1 - n) 0 = 0 :=
        List.getD_eq_default _ _ (by simpa using hd)
      rw [hgd, mul_zero]
    rw [hz]
    have h1 : k + 1 - k = 1 := by omega
    have h0 : k + 1 - (k + 1) = 0 := by omega
    rw [h1, h0]
    simp only [List.getD_cons_succ, List.getD_cons_zero, if_neg (Nat.succ_ne_zero k),
      Nat.add_sub_cancel]
    ring

theorem mulRef_linear (c : List Int) (a : Int) (hred : reduce c = c) (hne : c ≠ [])
    (hroot : specEval c a = 0) (ql : List Int)
    (hlen : ql.length = c.length - 1)
    (hq : ∀ j, ql.getD j 0 = specEval (c.drop (j + 1)) a) :
    Polynomial.mulRef ⟨ql⟩ ⟨[-a, 1]⟩ = ⟨c⟩ := by
  have hpos : 0 < c.length := List.length_pos.mpr hne
  have hlen2 : 2 ≤ c.length := by
    by_contra hcon
    have h1 : c.length = 1 := by omega
    obtain ⟨c0, rfl⟩ := List.length_eq_one.mp h1
    have hc0 : c0 = 0 := by simpa [specEval] using hroot
    subst hc0
    exact absurd hred (by decide)
  have hql : ql ≠ [] := by
    intro h0
    rw [h0] at hlen
    simp at hlen
    omega
  have hz1 : (⟨ql⟩ : Polynomial).is_zero = false := is_zero_false_iff.mpr hql
  have hz2 : (⟨[-a, 1]⟩ : Polynomial).is_zero = false := is_zero_false_iff.mpr (by simp)
  unfold Polynomial.mulRef
  rw [hz1, hz2]
  simp only [Bool.or_self, Bool.false_eq_true, if_false]
  have hconv : convList ql [-a, 1] = c := by
    apply List.ext_getElem
    · rw [convList_length ql [-a, 1] hql (by simp), hlen]
      simp only [List.length_cons, List.length_nil]
      omega
    · intro i hi1 hi2
      unfold convList
      simp only [List.getElem_map, List.getElem_range]
      rw [conv_linear_coeff, hq i, ← List.getD_eq_getElem c 0 hi2]
      have hsd := specEval_drop c a i hi2
      rcases i with _ | k
      · rw [List.drop_zero, hroot] at hsd
        have hif : (if (0 : Nat) = 0 then (0 : Int) else ql.getD (0 - 1) 0) = 0 := if_pos rfl
        rw [hif]
        linarith [hsd]
      · have hif : (if k + 1 = 0 then (0 : Int) else ql.getD (k + 1 - 1) 0) = ql.getD k 0 := by
          rw [if_neg (Nat.succ_ne_zero k), Nat.add_sub_cancel]
        rw [hif, hq k]
        linarith [hsd]
  rw [hconv, hred, hred]

/-- Claim C1: `factor_root` returns `None` exactly when `a` is not a root;
every `Some q` satisfies `q * (x - a) = p` (with the crate's own polynomial
multiplication and the factor `[-a, 1]`); and the zero polynomial factors to
`Some(zero())` for every `a`. -/
theorem C1_factor_root_roundtrip (p : Polynomial) (a : Int) (hp : Reduced p) :
    (p.factor_root a = none ↔ p.has_root a = false) ∧
    (∀ q, p.factor_root a = some q → q.mulRef ⟨[-a, 1]⟩ = p) ∧
    Polynomial.zero.factor_root a = some Polynomial.zero := by
  refine ⟨?_, ?_, by rfl⟩
  · by_cases hr : p.has_root a
    · have hsome : ∃ q, p.factor_root a = some q := by
        unfold Polynomial.factor_root
        rw [if_neg (by simp [hr])]
        by_cases hz : p.is_zero
        · rw [if_pos hz]
          exact ⟨_, rfl⟩
        · rw [if_neg hz]
          by_cases ha0 : a = 0
          · rw [if_pos ha0]
            exact ⟨_, rfl⟩
          · rw [if_neg ha0]
            exact ⟨_, rfl⟩
      obtain ⟨q, hq⟩ := hsome
      rw [hq, hr]
      simp
    · have hr2 : p.has_root a = false := by rwa [Bool.not_eq_true] at hr
      unfold Polynomial.factor_root
      rw [if_pos (by simp [hr2])]
      simp [hr2]
  · intro q hq
    by_cases hr : p.has_root a
    case neg =>
      unfold Polynomial.factor_root at hq
      rw [if_pos (by simpa using hr)] at hq
      cases hq
    case pos =>
      unfold Polynomial.factor_root at hq
      rw [if_neg (by simp [hr])] at hq
      have hroot : specEval p.coeffs a = 0 := by
        have h1 : p.eval a = 0 := by simpa [Polynomial.has_root] using hr
        rw [← eval_eq_specEval p.coeffs a]
        exact h1
      by_cases hz : p.is_zero
      · rw [if_pos hz] at hq
        obtain rfl := Option.some_injective _ hq
        have hc : p.coeffs = [] := is_zero_iff.mp hz
        have hpz : p = Polynomial.zero := by
          cases p
          simp only [Polynomial.zero]
          simp_all
        rw [hpz]
        rfl
      · rw [if_neg hz] at hq
        have hne : p.coeffs ≠ [] := fun h => hz (is_zero_iff.mpr h)
        have hpos : 0 < p.coeffs.length := List.length_pos.mpr hne
        by_cases ha0 : a = 0
        · rw [if_pos ha0] at hq
          obtain rfl := Option.some_injective _ hq
          subst ha0
          exact mulRef_linear p.coeffs 0 hp hne hroot (p.coeffs.drop 1)
            (by rw [List.length_drop])
            (fun j => by
              rw [specEval_at_zero]
              rw [List.getD_eq_getElem?_getD, List.getD_eq_getElem?_getD,
                List.getElem?_drop, List.getElem?_drop]
              have he : 1 + j = j + 1 + 0 := by omega
              rw [he])
        · rw [if_neg ha0] at hq
          obtain rfl := Option.some_injective _ hq
          apply mulRef_linear p.coeffs a hp hne hroot
          · rw [synthGo_length, List.length_take]
            omega
          · intro j
            by_cases hj : j < p.coeffs.length - 1
            · have happ : p.coeffs.take (p.coeffs.length - 1)
                  ++ p.coeffs.drop (p.coeffs.length - 1) = p.coeffs :=
                List.take_append_drop _ _
              have hgd := synthGo_getD a ha0 (p.coeffs.take (p.coeffs.length - 1))
                (p.coeffs.drop (p.coeffs.length - 1)) 0 (by rw [happ]; exact hroot.symm) j
                (by rw [List.length_take]; omega)
              rw [happ] at hgd
              exact hgd
            · rw [List.getD_eq_default _ _ (by rw [synthGo_length, List.length_take]; omega)]
              rw [specEval_drop_of_le _ _ _ (by omega)]

theorem C1_factor_root_roundtrip_witness :
    Reduced ⟨[12, -8, 1]⟩ ∧
    ((Polynomial.factor_root ⟨[12, -8, 1]⟩ 2 = none
        ↔ Polynomial.has_root ⟨[12, -8, 1]⟩ 2 = false) ∧
     (∀ q, Polynomial.factor_root ⟨[12, -8, 1]⟩ 2 = some q
        → Polynomial.mulRef q ⟨[-2, 1]⟩ = ⟨[12, -8, 1]⟩) ∧
     Polynomial.zero.factor_root 2 = some Polynomial.zero) :=
  ⟨by decide, C1_factor_root_roundtrip ⟨[12, -8, 1]⟩ 2 (by decide)⟩

end Polynomint
